import Mathlib

/-!
Verification of the anonymize-it utility core (`anonymize_it/utils.py`).

The Python functions `flatten_nest`, `parse_config`, `batch`,
`contains_secret`, `contains_keywords` and `hash_value` are embedded as
executable Lean definitions.  Python `dict`s are modelled as association
lists with Python's `dict(items)` semantics made explicit (`pyDict`),
Python truthiness is modelled explicitly, machine-independent `Nat`
arithmetic (with explicit `% 2^32`) is used for the SHA-256 engine, and
generators are modelled as step functions over explicit cursor state.
-/

namespace AnonymizeIt

/-! ## Records: arbitrarily nested string-keyed mappings -/

/-- Scalar leaf values of a record (Python `str` / `int` / `bool` / `None`). -/
inductive JScalar : Type where
  | s (v : String) : JScalar
  | i (v : Int) : JScalar
  | b (v : Bool) : JScalar
  | null : JScalar
deriving DecidableEq, Repr

mutual
/-- A record value: a scalar, a sequence of scalars, or a nested mapping. -/
inductive JVal : Type where
  | prim (v : JScalar) : JVal
  | seq (vs : List JScalar) : JVal
  | obj (fields : JObj) : JVal

/-- A string-keyed mapping, in insertion order (Python `dict`). -/
inductive JObj : Type where
  | nil : JObj
  | cons (key : String) (val : JVal) (rest : JObj) : JObj
end

deriving instance DecidableEq for JVal, JObj
deriving instance Repr for JVal, JObj

/-- The keys of a mapping, in order. -/
def JObj.keys : JObj → List String
  | .nil => []
  | .cons k _ rest => k :: rest.keys

/-- Membership of a key in a mapping. -/
def JObj.hasKey : JObj → String → Bool
  | .nil, _ => false
  | .cons k _ rest, key => decide (k = key) || rest.hasKey key

/-- Is the mapping empty? -/
def JObj.isNil : JObj → Bool
  | .nil => true
  | .cons _ _ _ => false

/-- Concatenation of two mappings (used to state rebuild lemmas). -/
def JObj.append : JObj → JObj → JObj
  | .nil, o => o
  | .cons k v rest, o => .cons k v (rest.append o)

/-- Lookup of a key (first occurrence), Python `d[k]` / `d.get(k)`. -/
def JObj.lookup : JObj → String → Option JVal
  | .nil, _ => Option.none
  | .cons k v rest, key => if k = key then some v else rest.lookup key

/-- Python `d[k] = v` on a `dict`: overwrite in place if the key exists,
otherwise append at the end. -/
def JObj.upsert : JObj → String → JVal → JObj
  | .nil, key, v => .cons key v .nil
  | .cons k w rest, key, v =>
    if k = key then .cons k v rest else .cons k w (rest.upsert key v)

/-! ## Python `dict(items)` on flat association lists

`dict(items)` keeps, for every key, its first position and its last
value. -/

/-- One insertion step of building a Python `dict` from an item list. -/
def pyDictUpdate (acc : List (String × JVal)) (k : String) (v : JVal) :
    List (String × JVal) :=
  if acc.any (fun p => p.1 == k) then
    acc.map (fun p => if p.1 == k then (k, v) else p)
  else acc ++ [(k, v)]

/-- Python `dict(items)` for a list of key-value pairs. -/
def pyDict (items : List (String × JVal)) : List (String × JVal) :=
  items.foldl (fun acc p => pyDictUpdate acc p.1 p.2) []

/-! ## `flatten_nest` (utils.py lines 22-30)

```python
def flatten_nest(d, parent_key='', sep='.'):
    items = []
    for k, v in d.items():
        new_key = parent_key + sep + k if parent_key else k
        if isinstance(v, MutableMapping):
            items.extend(flatten_nest(v, new_key, sep=sep).items())
        else:
            items.append((new_key, v))
    return dict(items)
```

`flatten_items` is the `items` list built by the loop (the recursive
call contributes `dict(...).items()`, i.e. a `pyDict`-ed list), and
`flatten_nest` is the final `dict(items)`. -/

/-- The dotted key built for one entry: Python
`parent_key + sep + k if parent_key else k` (note the truthiness test:
an empty `parent_key` is falsy). -/
def joinKey (parent_key sep k : String) : String :=
  if parent_key = "" then k else parent_key ++ sep ++ k

/-- The `items` list accumulated by one call of `flatten_nest`. -/
def flatten_items : JObj → String → String → List (String × JVal)
  | .nil, _, _ => []
  | .cons k v rest, parent_key, sep =>
    (match v with
     | .obj fields => pyDict (flatten_items fields (joinKey parent_key sep k) sep)
     | .prim s => [(joinKey parent_key sep k, .prim s)]
     | .seq vs => [(joinKey parent_key sep k, .seq vs)]) ++
    flatten_items rest parent_key sep

/-- `flatten_nest(d, parent_key, sep)`. -/
def flatten_nest (d : JObj) (parent_key : String) (sep : String) :
    List (String × JVal) :=
  pyDict (flatten_items d parent_key sep)

/-! ## Python `str.split(sep)`

Greedy left-to-right scan for non-overlapping occurrences of a nonempty
separator; defined on character lists with explicit fuel so that it is
structurally recursive (the fuel `l.length` always suffices because each
step consumes at least one character). -/

/-- One greedy split pass with fuel. -/
def pySplitGo (sep : List Char) : Nat → List Char → List (List Char)
  | _, [] => [[]]
  | 0, l => [l]
  | fuel+1, c :: cs =>
    if sep ≠ [] ∧ sep.isPrefixOf (c :: cs) then
      [] :: pySplitGo sep fuel (List.drop sep.length (c :: cs))
    else
      match pySplitGo sep fuel cs with
      | [] => [[c]]
      | p :: ps => (c :: p) :: ps

/-- Python `str.split(sep)` on character lists (`sep` nonempty). -/
def pySplit (sep l : List Char) : List (List Char) :=
  pySplitGo sep l.length l

/-- Python `s.split(sep)` on strings. -/
def pySplitStr (s sep : String) : List String :=
  (pySplit sep.data s.data).map String.mk

/-! ## `unflatten`

Modelled from the spec: the repository has no unflattening code
(FlattenCodec converts "conceptually back"); the spec describes
rebuilding the nested shape by splitting each dotted path on the
separator and creating / descending into nested mappings along the
segments.  `setPath` writes one value at one segment path, `unflatten`
folds it over the flat mapping in order. -/

/-- Modelled from the spec: write `v` at the key path `path` inside `o`,
creating nested mappings for missing intermediate segments and
descending into existing ones. -/
def setPath (o : JObj) : List String → JVal → JObj
  | [], _ => o
  | [k], v => o.upsert k v
  | k :: ks, v =>
    match o.lookup k with
    | some (.obj inner) => o.upsert k (.obj (setPath inner ks v))
    | _ => o.upsert k (.obj (setPath .nil ks v))

/-- Modelled from the spec: rebuild a nested mapping from a flat dotted
mapping by splitting every key on the separator. -/
def unflatten (flat : List (String × JVal)) (sep : String) : JObj :=
  flat.foldl (fun acc p => setPath acc (pySplitStr p.1 sep) p.2) .nil

/-! ## Well-formed records

The record data model (spec section 3) requires unique keys at each
level; for the round-trip the keys must additionally be nonempty, must
not contain the separator character, and nested mappings must be
nonempty. -/

mutual
/-- Well-formedness of one value with forbidden separator character `c`. -/
def JVal.wfVal (c : Char) : JVal → Bool
  | .prim _ => true
  | .seq _ => true
  | .obj o => (!o.isNil) && o.wfObj c

/-- Well-formedness of one mapping with forbidden separator character `c`:
keys are unique at this level, nonempty and `c`-free, and nested
mappings are themselves well-formed and nonempty. -/
def JObj.wfObj (c : Char) : JObj → Bool
  | .nil => true
  | .cons k v rest =>
    (!(decide (k = ""))) && (!(decide (c ∈ k.data))) && (!(rest.hasKey k)) &&
    v.wfVal c && rest.wfObj c
end

/-- The leaf paths of a record: every maximal chain of mapping keys
together with the terminal (non-mapping) value it reaches. -/
def flatPaths : JObj → List (List String × JVal)
  | .nil => []
  | .cons k v rest =>
    (match v with
     | .obj fields => (flatPaths fields).map (fun p => (k :: p.1, p.2))
     | .prim s => [([k], JVal.prim s)]
     | .seq vs => [([k], JVal.seq vs)]) ++
    flatPaths rest

/-- Folding the flatten key construction over a whole segment path. -/
def extendKey (sep : String) (parent : String) (ks : List String) : String :=
  ks.foldl (fun a k => joinKey a sep k) parent

/-- Joining character-list segments with a single separator character. -/
def joinSegs (c : Char) : List (List Char) → List Char
  | [] => []
  | [s] => s
  | s :: rest => s ++ c :: joinSegs c rest

/-- Does `sub` occur as a contiguous substring (Python `sub in s`)? -/
def hasSubList (sub : List Char) : List Char → Bool
  | [] => sub.isEmpty
  | c :: cs => sub.isPrefixOf (c :: cs) || hasSubList sub cs

/-- Python `sub in hay` on strings. -/
def strHasSub (hay sub : String) : Bool :=
  hasSubList sub.data hay.data

/-- The one-character separator string for a character `c`. -/
def sepOf (c : Char) : String := String.mk [c]

/-- A list of path segments usable as an already-flattened prefix: every
segment is a nonempty key not containing the separator character. -/
def wfSegs (c : Char) (P : List String) : Bool :=
  P.all (fun k => (!(decide (k = ""))) && (!(decide (c ∈ k.data))))

/-- Does the separator string occur in some key of the record (at any
nesting level)?  This is the side condition of the round-trip claim. -/
def sepInSomeKey (sep : String) : JObj → Bool
  | .nil => false
  | .cons k v rest =>
    strHasSub k sep ||
    (match v with
     | .obj fields => sepInSomeKey sep fields
     | _ => false) ||
    sepInSomeKey sep rest

/-! ## `parse_config` (utils.py lines 32-63)

Raw configurations are nested Python values; truthiness (`not x`) is
modelled explicitly.  `warnings.warn` is modelled by returning the list
of emitted warning messages alongside the result, and `raise
ConfigParserError(msg)` by `Except.error msg`. -/

mutual
/-- A Python value appearing in a raw configuration. -/
inductive CVal : Type where
  | none : CVal
  | str (s : String) : CVal
  | boolean (b : Bool) : CVal
  | num (n : Int) : CVal
  | dict (fields : CFields) : CVal
  | arr (elems : CElems) : CVal

/-- Entries of a configuration dictionary. -/
inductive CFields : Type where
  | nil : CFields
  | cons (key : String) (val : CVal) (rest : CFields) : CFields

/-- Elements of a configuration list. -/
inductive CElems : Type where
  | nil : CElems
  | cons (val : CVal) (rest : CElems) : CElems
end

deriving instance DecidableEq for CVal, CFields, CElems
deriving instance Repr for CVal, CFields, CElems
deriving instance DecidableEq for Except

/-- Python `d.get(k)` on a configuration dictionary (absent key gives
`None`). -/
def CFields.get : CFields → String → CVal
  | .nil, _ => .none
  | .cons k v rest, key => if k = key then v else rest.get key

/-- `x.get(k)` where `x` was itself read from the configuration: only
meaningful when `x` is a dictionary; embedded as `None` otherwise (the
theorems only quantify over configurations whose `source` and `dest`
are dictionaries or absent, since Python would raise `AttributeError`
on anything else). -/
def CVal.get : CVal → String → CVal
  | .dict fs, key => fs.get key
  | _, _ => .none

/-- Python truthiness of a configuration value. -/
def CVal.truthy : CVal → Bool
  | .none => false
  | .str s => !(decide (s = ""))
  | .boolean b => b
  | .num n => !(decide (n = 0))
  | .dict .nil => false
  | .dict (.cons _ _ _) => true
  | .arr .nil => false
  | .arr (.cons _ _) => true

/-- The immutable `Config` named tuple built by `parse_config`. -/
structure ParsedConfig : Type where
  source : CVal
  dest : CVal
  anonymization_type : CVal
  masked_fields : CVal
  suppressed_fields : CVal
  include_rest : CVal
  sensitive : CVal
deriving DecidableEq, Repr

/-- The warning message emitted for an empty / absent mask list. -/
def emptyMaskWarning : String :=
  "no masked fields included in config. No data will be anonymized"

/-- `parse_config(config)`: returns the emitted warnings together with
either the `ConfigParserError` message or the parsed `Config`. -/
def parse_config (config : CFields) : List String × Except String ParsedConfig :=
  let source := config.get "source"
  let dest := config.get "dest"
  let anonymization_type := config.get "anonymization"
  let masked_fields := config.get "include"
  let suppressed_fields := config.get "exclude"
  let include_rest := config.get "include_rest"
  let sensitive := config.get "sensitive"
  if !source.truthy then
    ([], .error "source error: source not defined. Please check config.")
  else if !dest.truthy then
    ([], .error "destination error: dest not defined. Please check config.")
  else
    let warns := if !masked_fields.truthy then [emptyMaskWarning] else []
    let reader_type := source.get "type"
    let writer_type := dest.get "type"
    if !reader_type.truthy then
      (warns, .error "source error: source type not defined. Please check config.")
    else if !writer_type.truthy then
      (warns, .error "destination error: dest type not defined. Please check config.")
    else
      (warns, .ok ⟨source, dest, anonymization_type, masked_fields,
                   suppressed_fields, include_rest, sensitive⟩)

/-- The `source` / `dest` entries of a raw configuration are mappings
when present (the shape the spec's data model prescribes). -/
def rawShapeOk (config : CFields) : Bool :=
  (match config.get "source" with
   | .dict _ => true
   | .none => true
   | _ => false) &&
  (match config.get "dest" with
   | .dict _ => true
   | .none => true
   | _ => false)

/-! ## `contains_secret` and `contains_keywords` (utils.py lines 129-146)

A field value is a string or a list of strings (`type(field_value) ==
list`).  The compiled secret regex is embedded as its search predicate
`search : String → Bool` (the truthiness of `regex.search(f)`); the
functions' Python returns (`True` vs falling through to `None`) are
embedded as their truthiness. -/

/-- A classified field value: a scalar string or a list of strings. -/
inductive FieldVal : Type where
  | str (s : String) : FieldVal
  | list (elems : List String) : FieldVal
deriving DecidableEq, Repr

/-- `contains_secret(regex, field_value)`. -/
def contains_secret (search : String → Bool) : FieldVal → Bool
  | .list fs => fs.any (fun f => search f)
  | .str s => search s

/-- Truthiness of the `keywords` argument (`None` or `[]` is falsy). -/
def kwFalsy : Option (List String) → Bool
  | Option.none => true
  | some [] => true
  | some (_ :: _) => false

/-- `contains_keywords(field_value, keywords)`. -/
def contains_keywords (field_value : FieldVal) (keywords : Option (List String)) :
    Bool :=
  if kwFalsy keywords then false
  else
    match field_value with
    | .list fs =>
      (keywords.getD []).any (fun word => fs.any (fun f => strHasSub f word))
    | .str s => (keywords.getD []).any (fun word => strHasSub s word)

/-! ## `batch` (utils.py lines 65-72)

```python
def batch(iterable, size):
    sourceiter = iter(iterable)
    while True:
        batchiter = islice(sourceiter, size)
        try:
            yield chain([next(batchiter)], batchiter)
        except StopIteration:
            return
```

The generator is embedded as a state machine over the shared source
cursor.  A group (`chain([x], batchiter)`) is the pair of its pre-fetched
pending element and the remaining `islice` budget; `nextGroup` is one
step of the outer generator and `nextElem` one step of an inner group. -/

/-- The state of one yielded group: the pre-fetched element not yet
handed to the consumer, and the remaining `islice` budget. -/
abbrev GroupState (α : Type) : Type := Option α × Nat

/-- One step of the outer generator: build `islice(sourceiter, size)`
and pre-fetch its first element; `none` is `StopIteration` (source
exhausted, or `size = 0`), which terminates the generator. -/
def nextGroup (size : Nat) (src : List α) : Option (GroupState α × List α) :=
  match size, src with
  | 0, _ => Option.none
  | _+1, [] => Option.none
  | s'+1, x :: rest => some ((some x, s'), rest)

/-- One step of an inner group: hand out the pending pre-fetched element
first, then pull from the shared cursor while budget remains. -/
def nextElem : GroupState α → List α → Option α × GroupState α × List α
  | (some x, b), src => (some x, (Option.none, b), src)
  | (Option.none, 0), src => (Option.none, (Option.none, 0), src)
  | (Option.none, b+1), [] => (Option.none, (Option.none, b+1), [])
  | (Option.none, b+1), y :: rest => (some y, (Option.none, b), rest)

/-- Request up to `n` elements from a group: the elements produced, the
final group state and the final shared cursor. -/
def drainGo : Nat → GroupState α → List α → List α × GroupState α × List α
  | 0, g, src => ([], g, src)
  | n+1, g, src =>
    match nextElem g src with
    | (Option.none, g', src') => ([], g', src')
    | (some x, g', src') =>
      let p := drainGo n g' src'
      (x :: p.1, p.2)

/-- Fully consume a group (request elements until it stops; budget plus
the pending element bounds how many can come). -/
def drainAll (g : GroupState α) (src : List α) :
    List α × GroupState α × List α :=
  drainGo (g.2 + 1) g src

/-- The groups produced when every group is fully consumed before the
next is requested, with explicit fuel (structurally recursive; the fuel
`src.length` suffices since every group consumes the pre-fetched
element). -/
def batchAllGo : Nat → Nat → List α → List (List α)
  | 0, _, _ => []
  | fuel+1, size, src =>
    match nextGroup size src with
    | Option.none => []
    | some (g, src') =>
      let p := drainAll g src'
      p.1 :: batchAllGo fuel size p.2.2

/-- All groups of `batch(iterable, size)` under full consumption of each
inner group. -/
def batchAll (size : Nat) (src : List α) : List (List α) :=
  batchAllGo src.length size src

/-! ## `hash_value` (utils.py lines 148-149)

```python
def hash_value(hashkey, field_value):
    return hashlib.sha256(f"{hashkey}:{field_value}".encode()).hexdigest()
```

`str.encode()` is UTF-8 encoding and `hashlib.sha256` is SHA-256
(FIPS 180-4), both implemented here over `Nat` with explicit reduction
modulo `2^32`. -/

/-- Reduction to a 32-bit word. -/
def w32 (n : Nat) : Nat := n % 4294967296

/-- Bitwise complement of a 32-bit word (input assumed `< 2^32`). -/
def not32 (x : Nat) : Nat := 4294967295 - x

/-- Right rotation of a 32-bit word by `n` places. -/
def rotr32 (n x : Nat) : Nat := w32 ((x >>> n) ||| (x <<< (32 - n)))

/-- SHA-256 `Ch` function. -/
def shaCh (x y z : Nat) : Nat := (x &&& y) ^^^ (not32 x &&& z)

/-- SHA-256 `Maj` function. -/
def shaMaj (x y z : Nat) : Nat := (x &&& y) ^^^ (x &&& z) ^^^ (y &&& z)

/-- SHA-256 big sigma 0. -/
def shaBigS0 (x : Nat) : Nat := rotr32 2 x ^^^ rotr32 13 x ^^^ rotr32 22 x

/-- SHA-256 big sigma 1. -/
def shaBigS1 (x : Nat) : Nat := rotr32 6 x ^^^ rotr32 11 x ^^^ rotr32 25 x

/-- SHA-256 small sigma 0. -/
def shaSmallS0 (x : Nat) : Nat := rotr32 7 x ^^^ rotr32 18 x ^^^ (x >>> 3)

/-- SHA-256 small sigma 1. -/
def shaSmallS1 (x : Nat) : Nat := rotr32 17 x ^^^ rotr32 19 x ^^^ (x >>> 10)

/-- The 64 SHA-256 round constants. -/
def shaK : List Nat :=
  [1116352408, 1899447441, 3049323471, 3921009573,
   961987163, 1508970993, 2453635748, 2870763221,
   3624381080, 310598401, 607225278, 1426881987,
   1925078388, 2162078206, 2614888103, 3248222580,
   3835390401, 4022224774, 264347078, 604807628,
   770255983, 1249150122, 1555081692, 1996064986,
   2554220882, 2821834349, 2952996808, 3210313671,
   3336571891, 3584528711, 113926993, 338241895,
   666307205, 773529912, 1294757372, 1396182291,
   1695183700, 1986661051, 2177026350, 2456956037,
   2730485921, 2820302411, 3259730800, 3345764771,
   3516065817, 3600352804, 4094571909, 275423344,
   430227734, 506948616, 659060556, 883997877,
   958139571, 1322822218, 1537002063, 1747873779,
   1955562222, 2024104815, 2227730452, 2361852424,
   2428436474, 2756734187, 3204031479, 3329325298]

/-- The eight-word SHA-256 working state. -/
abbrev ShaState : Type :=
  Nat × Nat × Nat × Nat × Nat × Nat × Nat × Nat

/-- The SHA-256 initial hash value. -/
def shaInit : ShaState :=
  (1779033703, 3144134277, 1013904242, 2773480762,
   1359893119, 2600822924, 528734635, 1541459225)

/-- Big-endian bytes of a number, fixed width. -/
def beBytes : Nat → Nat → List Nat
  | 0, _ => []
  | w+1, n => beBytes w (n >>> 8) ++ [n &&& 255]

/-- SHA-256 message padding: append `0x80`, zero bytes to 56 mod 64,
then the bit length as 8 big-endian bytes. -/
def sha256pad (msg : List Nat) : List Nat :=
  let len := msg.length
  let zeros := (64 - ((len + 9) % 64)) % 64
  msg ++ 128 :: (List.replicate zeros 0 ++ beBytes 8 (8 * len))

/-- Big-endian 32-bit words of a byte list. -/
def toWords : List Nat → List Nat
  | b0 :: b1 :: b2 :: b3 :: rest =>
    (((b0 * 256 + b1) * 256 + b2) * 256 + b3) :: toWords rest
  | _ => []

/-- 16-word message blocks of a word list. -/
def chunk16 : List Nat → List (List Nat)
  | w0 :: w1 :: w2 :: w3 :: w4 :: w5 :: w6 :: w7 ::
    w8 :: w9 :: w10 :: w11 :: w12 :: w13 :: w14 :: w15 :: rest =>
    [w0, w1, w2, w3, w4, w5, w6, w7,
     w8, w9, w10, w11, w12, w13, w14, w15] :: chunk16 rest
  | _ => []

/-- Message schedule extension: append words until 64 are present. -/
def scheduleGo : Nat → List Nat → List Nat
  | 0, acc => acc
  | n+1, acc =>
    let len := acc.length
    let w := w32 (shaSmallS1 (acc.getD (len - 2) 0) + acc.getD (len - 7) 0 +
                  shaSmallS0 (acc.getD (len - 15) 0) + acc.getD (len - 16) 0)
    scheduleGo n (acc ++ [w])

/-- The 64 SHA-256 rounds over the zipped constants and schedule. -/
def compressGo : List (Nat × Nat) → ShaState → ShaState
  | [], st => st
  | (k, w) :: rest, (a, b, c, d, e, f, g, h) =>
    let t1 := w32 (h + shaBigS1 e + shaCh e f g + k + w)
    let t2 := w32 (shaBigS0 a + shaMaj a b c)
    compressGo rest (w32 (t1 + t2), a, b, c, w32 (d + t1), e, f, g)

/-- Process one 16-word block. -/
def sha256block (st : ShaState) (block : List Nat) : ShaState :=
  let ws := scheduleGo 48 block
  let r := compressGo (shaK.zip ws) st
  (w32 (st.1 + r.1), w32 (st.2.1 + r.2.1), w32 (st.2.2.1 + r.2.2.1),
   w32 (st.2.2.2.1 + r.2.2.2.1), w32 (st.2.2.2.2.1 + r.2.2.2.2.1),
   w32 (st.2.2.2.2.2.1 + r.2.2.2.2.2.1),
   w32 (st.2.2.2.2.2.2.1 + r.2.2.2.2.2.2.1),
   w32 (st.2.2.2.2.2.2.2 + r.2.2.2.2.2.2.2))

/-- The eight 32-bit words of the SHA-256 digest of a byte message. -/
def sha256words (msg : List Nat) : List Nat :=
  let st := (chunk16 (toWords (sha256pad msg))).foldl sha256block shaInit
  [st.1, st.2.1, st.2.2.1, st.2.2.2.1, st.2.2.2.2.1,
   st.2.2.2.2.2.1, st.2.2.2.2.2.2.1, st.2.2.2.2.2.2.2]

/-- One lowercase hexadecimal digit. -/
def hexDigit (n : Nat) : Char :=
  if n < 10 then Char.ofNat (48 + n) else Char.ofNat (87 + n)

/-- A 32-bit word as exactly eight lowercase hexadecimal characters
(`hexdigest` pads with leading zeros). -/
def hexWord8 (n : Nat) : String :=
  String.mk ((List.range 8).map (fun i => hexDigit ((n >>> (4 * (7 - i))) &&& 15)))

/-- Concatenation of a list of strings. -/
def hexConcat : List String → String
  | [] => ""
  | s :: rest => s ++ hexConcat rest

/-- `hashlib.sha256(bytes).hexdigest()`. -/
def sha256hexdigest (msg : List Nat) : String :=
  hexConcat ((sha256words msg).map hexWord8)

/-- UTF-8 encoding of one character (code point already validated by
Python's `str`). -/
def utf8Char (c : Char) : List Nat :=
  let v := c.toNat
  if v < 128 then [v]
  else if v < 2048 then [192 ||| (v >>> 6), 128 ||| (v &&& 63)]
  else if v < 65536 then
    [224 ||| (v >>> 12), 128 ||| ((v >>> 6) &&& 63), 128 ||| (v &&& 63)]
  else
    [240 ||| (v >>> 18), 128 ||| ((v >>> 12) &&& 63),
     128 ||| ((v >>> 6) &&& 63), 128 ||| (v &&& 63)]

/-- Python `s.encode()`: UTF-8 bytes of a string. -/
def utf8Encode (s : String) : List Nat :=
  (s.data.map utf8Char).flatten

/-- `hash_value(hashkey, field_value)` for string inputs (an f-string
interpolates the `str` of its arguments; the anonymizer hashes string
field values). -/
def hash_value (hashkey : String) (field_value : String) : String :=
  sha256hexdigest (utf8Encode (hashkey ++ ":" ++ field_value))

/-! ## Concrete inputs used by counterexamples and witnesses -/

/-- A raw configuration whose `source.type` is present but empty. -/
def cfgTypeEmpty : CFields :=
  .cons "source" (.dict (.cons "type" (.str "") .nil))
    (.cons "dest" (.dict (.cons "type" (.str "es") .nil)) .nil)

/-- A raw configuration with no `include` key and both types present. -/
def cfgNoMask : CFields :=
  .cons "source" (.dict (.cons "type" (.str "elasticsearch") .nil))
    (.cons "dest" (.dict (.cons "type" (.str "filesystem") .nil)) .nil)

/-- Record with an empty top-level key over a nested mapping. -/
def recEmptyTopKey : JObj :=
  .cons "" (.obj (.cons "a" (.prim (.i 1)) .nil)) .nil

/-- Record whose separator-join overlaps itself under `sep = "aa"`. -/
def recSepOverlap : JObj :=
  .cons "a" (.obj (.cons "b" (.prim (.i 1)) .nil)) .nil

/-- Record containing an empty nested mapping. -/
def recEmptyNested : JObj :=
  .cons "a" (.obj .nil) .nil

/-- A well-formed two-level record used as round-trip witness. -/
def recUser : JObj :=
  .cons "user"
    (.obj (.cons "email" (.prim (.s "a@b.com"))
      (.cons "name" (.prim (.s "Al")) .nil)))
    (.cons "tags" (.seq [.s "secret", .s "ok"]) .nil)

end AnonymizeIt

namespace AnonymizeIt

/-! # Lemmas and theorems -/

/-! ## Batch iterator lemmas -/

theorem drainGo_none (m : Nat) :
    ∀ (b : Nat) (src : List α),
      (drainGo m ((Option.none : Option α), b) src).1 = src.take (min m b) ∧
      (drainGo m ((Option.none : Option α), b) src).2.2 = src.drop (min m b) := by
  induction m with
  | zero => intro b src; simp [drainGo]
  | succ m ih =>
    intro b src
    match b, src with
    | 0, src => simp [drainGo, nextElem]
    | b'+1, [] => simp [drainGo, nextElem]
    | b'+1, y :: rest =>
      have h := ih b' rest
      simp only [drainGo, nextElem]
      simp [h.1, h.2, Nat.succ_min_succ]

theorem drainGo_pending (j : Nat) (x : α) (b : Nat) (src : List α) :
    (drainGo (j+1) (some x, b) src).1 = x :: src.take (min j b) ∧
    (drainGo (j+1) (some x, b) src).2.2 = src.drop (min j b) := by
  have h := drainGo_none j b src
  simp only [drainGo, nextElem]
  simp [h.1, h.2]

theorem nextGroup_nil (size : Nat) :
    nextGroup size ([] : List α) = Option.none := by
  cases size <;> rfl

theorem batchAllGo_succ (f s' : Nat) (x : α) (rest : List α) :
    batchAllGo (f+1) (s'+1) (x :: rest) =
      (x :: rest.take s') :: batchAllGo f (s'+1) (rest.drop s') := by
  have h := drainGo_pending s' x s' rest
  simp only [batchAllGo, nextGroup, drainAll]
  simp [h.1, h.2]

theorem batchAllGo_fuel (size : Nat) :
    ∀ (f1 f2 : Nat) (src : List α), src.length ≤ f1 → src.length ≤ f2 →
      batchAllGo f1 size src = batchAllGo f2 size src := by
  intro f1
  induction f1 with
  | zero =>
    intro f2 src h1 _
    have : src = [] := List.length_eq_zero.mp (Nat.le_zero.mp h1)
    subst this
    cases f2 with
    | zero => rfl
    | succ f => simp [batchAllGo, nextGroup_nil]
  | succ f1' ih =>
    intro f2 src h1 h2
    match src with
    | [] =>
      cases f2 with
      | zero => simp [batchAllGo, nextGroup_nil]
      | succ f => simp [batchAllGo, nextGroup_nil]
    | x :: rest =>
      have hf2 : ∃ f2', f2 = f2' + 1 := by
        cases f2 with
        | zero => simp at h2
        | succ f => exact ⟨f, rfl⟩
      obtain ⟨f2', rfl⟩ := hf2
      cases size with
      | zero => simp [batchAllGo, nextGroup]
      | succ s' =>
        rw [batchAllGo_succ, batchAllGo_succ]
        have hlen : (rest.drop s').length ≤ rest.length := by
          simp [List.length_drop]
        have hr : rest.length ≤ f1' := by simpa using h1
        have hr2 : rest.length ≤ f2' := by simpa using h2
        rw [ih f2' (rest.drop s') (le_trans hlen hr) (le_trans hlen hr2)]

theorem batchAll_cons (s' : Nat) (x : α) (rest : List α) :
    batchAll (s'+1) (x :: rest) =
      (x :: rest.take s') :: batchAll (s'+1) (rest.drop s') := by
  unfold batchAll
  simp only [List.length_cons]
  rw [batchAllGo_succ]
  rw [batchAllGo_fuel (s'+1) rest.length (rest.drop s').length (rest.drop s')]
  · simp [List.length_drop]
  · exact le_refl _

theorem batchAll_join (s' : Nat) (src : List α) :
    (batchAll (s'+1) src).flatten = src := by
  match src with
  | [] => rfl
  | x :: rest =>
    rw [batchAll_cons]
    simp only [List.flatten_cons]
    rw [batchAll_join s' (rest.drop s')]
    simp [List.take_append_drop]
termination_by src.length
decreasing_by simp [List.length_drop]; omega

theorem batchAll_group_bounds (s' : Nat) (src : List α) :
    ∀ g ∈ batchAll (s'+1) src, g ≠ [] ∧ g.length ≤ s' + 1 := by
  match src with
  | [] => intro g hg; simp [batchAll, batchAllGo] at hg
  | x :: rest =>
    rw [batchAll_cons]
    intro g hg
    rcases List.mem_cons.mp hg with h | h
    · subst h
      refine ⟨by simp, ?_⟩
      have := List.length_take_le s' rest
      simp only [List.length_cons]
      omega
    · exact batchAll_group_bounds s' (rest.drop s') g h
termination_by src.length
decreasing_by simp [List.length_drop]; omega

theorem batchAll_dropLast_full (s' : Nat) (src : List α) :
    ∀ g ∈ (batchAll (s'+1) src).dropLast, g.length = s' + 1 := by
  match src with
  | [] => intro g hg; simp [batchAll, batchAllGo] at hg
  | x :: rest =>
    rw [batchAll_cons]
    rcases hd : rest.drop s' with _ | ⟨y, r'⟩
    · intro g hg
      simp [batchAll, batchAllGo] at hg
    · have ih := batchAll_dropLast_full s' (rest.drop s')
      rw [batchAll_cons]
      rw [hd, batchAll_cons] at ih
      intro g hg
      rw [List.dropLast_cons₂] at hg
      rcases List.mem_cons.mp hg with h | h
      · subst h
        have hlen : s' < rest.length := by
          by_contra hc
          have hnil : rest.drop s' = [] := List.drop_eq_nil_of_le (by omega)
          rw [hnil] at hd
          exact List.noConfusion hd
        simp [List.length_take, Nat.min_eq_left (Nat.le_of_lt hlen)]
      · exact ih g h
termination_by src.length
decreasing_by simp [List.length_drop]; omega

/-! ## Claim C5: batching under full consumption -/

/-- C5 (confirmed): for every finite input and every `size >= 1`, under
full consumption of each inner group `batch` yields consecutive groups
of exactly `size` elements followed by a possibly shorter nonempty final
group, terminates when the source is exhausted, and on `[1,2,3,4,5]`
with size 2 yields `[1,2]`, `[3,4]`, `[5]`. -/
theorem batch_full_consumption :
    (∀ (α : Type) (size : Nat) (src : List α), 1 ≤ size →
      (batchAll size src).flatten = src ∧
      (∀ g ∈ (batchAll size src).dropLast, g.length = size) ∧
      (∀ g ∈ batchAll size src, g ≠ [] ∧ g.length ≤ size)) ∧
    batchAll 2 [1, 2, 3, 4, 5] = [[1, 2], [3, 4], [5]] := by
  constructor
  · intro α size src h
    obtain ⟨s', rfl⟩ : ∃ s', size = s' + 1 := ⟨size - 1, by omega⟩
    exact ⟨batchAll_join s' src, batchAll_dropLast_full s' src,
           batchAll_group_bounds s' src⟩
  · decide

/-- Witness for C5 at `size = 2`, `src = [1,2,3,4,5]`. -/
theorem batch_full_consumption_witness :
    1 ≤ 2 ∧ (batchAll 2 [1, 2, 3, 4, 5]).flatten = [1, 2, 3, 4, 5] :=
  ⟨by decide, (batch_full_consumption.1 Nat 2 [1, 2, 3, 4, 5] (by decide)).1⟩

/-! ## Claim C6: the shared cursor and non-restartability -/

/-- C6 (confirmed): groups share one cursor; after `j` of the current
group's elements are consumed (the pre-fetched head counts as consumed
at group creation), the shared cursor stands at `rest.drop (j-1)`, and
requesting further groups replays exactly those elements — the current
group's unconsumed tail beyond the pre-fetched element is a prefix of
what the following groups yield, so nothing beyond the pre-fetched
element is skipped, and the groups partition the source only under full
consumption. -/
theorem batch_shared_cursor (α : Type) (s' j : Nat) (x : α) (rest : List α)
    (hj : j ≤ s' + 1) :
    nextGroup (s' + 1) (x :: rest) = some ((some x, s'), rest) ∧
    (drainGo j (some x, s') rest).1 = (x :: rest).take j ∧
    (drainGo j (some x, s') rest).2.2 = rest.drop (j - 1) ∧
    (batchAll (s' + 1) ((drainGo j (some x, s') rest).2.2)).flatten =
      rest.drop (j - 1) ∧
    (rest.take s').drop (j - 1) <+:
      (batchAll (s' + 1) ((drainGo j (some x, s') rest).2.2)).flatten := by
  have hdrain : (drainGo j (some x, s') rest).1 = (x :: rest).take j ∧
      (drainGo j (some x, s') rest).2.2 = rest.drop (j - 1) := by
    cases j with
    | zero => simp [drainGo]
    | succ m =>
      have h := drainGo_pending m x s' rest
      have hm : min m s' = m := Nat.min_eq_left (by omega)
      rw [hm] at h
      exact ⟨by rw [h.1]; simp, by rw [h.2]; simp⟩
  refine ⟨rfl, hdrain.1, hdrain.2, ?_, ?_⟩
  · rw [hdrain.2]; exact batchAll_join s' (rest.drop (j - 1))
  · rw [hdrain.2, batchAll_join s' (rest.drop (j - 1))]
    rw [List.drop_take s' (j - 1) rest]
    exact List.take_prefix _ _

/-- Witness for C6: size 2, one element consumed from the first group of
`[1,2,3,4,5]`; the following groups replay `[2,3,4,5]`. -/
theorem batch_shared_cursor_witness :
    1 ≤ 1 + 1 ∧
    (drainGo 1 (some 1, 1) [2, 3, 4, 5]).2.2 = [2, 3, 4, 5] ∧
    (batchAll 2 ((drainGo 1 (some 1, 1) [2, 3, 4, 5]).2.2)).flatten =
      [2, 3, 4, 5] := by
  have h := batch_shared_cursor Nat 1 1 1 [2, 3, 4, 5] (by decide)
  exact ⟨by decide, h.2.2.1, h.2.2.2.1⟩

/-! ## Claim C4: sequence-valued fields match as a whole -/

/-- C4 (confirmed): on a sequence-valued field, `contains_secret` is
truthy iff some element matches the regex search, and
`contains_keywords` is truthy iff some keyword is a substring of some
element; each verdict is one whole-field boolean. -/
theorem sequence_match_any (search : String → Bool) (fs ws : List String) :
    (contains_secret search (.list fs) = true ↔ ∃ f ∈ fs, search f = true) ∧
    (contains_keywords (.list fs) (some ws) = true ↔
      ∃ w ∈ ws, ∃ f ∈ fs, strHasSub f w = true) := by
  constructor
  · simp [contains_secret, List.any_eq_true]
  · cases ws with
    | nil => simp [contains_keywords, kwFalsy]
    | cons w ws' => simp [contains_keywords, kwFalsy, List.any_eq_true]

/-! ## Claim C9: an empty keyword list never matches -/

/-- C9 (confirmed): `contains_keywords` with an absent (`None`) or empty
keyword list returns `False` for every field value. -/
theorem empty_keywords_no_match (v : FieldVal) :
    contains_keywords v Option.none = false ∧
    contains_keywords v (some []) = false := by
  cases v <;> simp [contains_keywords, kwFalsy]

/-! ## Claim C2: the hash contract -/

theorem hexWord8_length (n : Nat) : (hexWord8 n).length = 8 := by
  simp [hexWord8, String.length]

theorem hexConcat_map_length (l : List Nat) :
    (hexConcat (l.map hexWord8)).length = 8 * l.length := by
  induction l with
  | nil => rfl
  | cons n rest ih =>
    simp only [List.map_cons, hexConcat, String.length_append, hexWord8_length,
      ih, List.length_cons]
    ring

theorem sha256words_length (msg : List Nat) : (sha256words msg).length = 8 := rfl

theorem sha256hexdigest_length (msg : List Nat) :
    (sha256hexdigest msg).length = 64 := by
  have h := hexConcat_map_length (sha256words msg)
  rw [sha256words_length msg] at h
  simpa using h

/-- C2 (confirmed): `hash_value(hashKey, value)` is the hexadecimal
SHA-256 digest of the UTF-8 encoding of `"{hashKey}:{value}"`, it is
deterministic, and its length is always 64 hex characters. -/
theorem hash_value_contract (hashkey value : String) :
    hash_value hashkey value =
      sha256hexdigest (utf8Encode (hashkey ++ ":" ++ value)) ∧
    hash_value hashkey value = hash_value hashkey value ∧
    (hash_value hashkey value).length = 64 :=
  ⟨rfl, rfl, sha256hexdigest_length _⟩

/-! ## Claim C10: tokens only depend on the concatenation -/

/-- C10 (confirmed): whenever the interpolations agree,
`f"{k1}:{v1}" == f"{k2}:{v2}"`, the tokens agree; in particular the
distinct pairs `("a", "b:c")` and `("a:b", "c")` collide, so a token
does not determine the `(hashKey, value)` pair. -/
theorem hash_value_concat_collision :
    (∀ k1 v1 k2 v2 : String, k1 ++ ":" ++ v1 = k2 ++ ":" ++ v2 →
      hash_value k1 v1 = hash_value k2 v2) ∧
    hash_value "a" "b:c" = hash_value "a:b" "c" ∧
    ¬(("a" : String) = "a:b" ∧ ("b:c" : String) = "c") := by
  have base : ∀ k1 v1 k2 v2 : String, k1 ++ ":" ++ v1 = k2 ++ ":" ++ v2 →
      hash_value k1 v1 = hash_value k2 v2 := by
    intro k1 v1 k2 v2 h
    unfold hash_value
    rw [h]
  exact ⟨base, base "a" "b:c" "a:b" "c" (by decide), by decide⟩

/-- Witness for C10 at another concrete colliding pair. -/
theorem hash_value_concat_collision_witness :
    ("x:y" : String) ++ ":" ++ "z" = "x" ++ ":" ++ "y:z" ∧
    hash_value "x:y" "z" = hash_value "x" "y:z" :=
  ⟨by decide, hash_value_concat_collision.1 "x:y" "z" "x" "y:z" (by decide)⟩

/-! ## Claim C3: the configuration error conditions -/

/-- C3 counterexample: a configuration in which `source`, `dest`,
`source.type` and `dest.type` are all present (nothing is missing) yet
`parse_config` raises, because the present `source.type` is the empty
string, which is falsy.  So "raises exactly when a required key is
missing" is false as stated. -/
theorem parse_config_missing_cex :
    rawShapeOk cfgTypeEmpty = true ∧
    cfgTypeEmpty.get "source" ≠ .none ∧
    cfgTypeEmpty.get "dest" ≠ .none ∧
    (cfgTypeEmpty.get "source").get "type" ≠ .none ∧
    (cfgTypeEmpty.get "dest").get "type" ≠ .none ∧
    (parse_config cfgTypeEmpty).2 =
      .error "source error: source type not defined. Please check config." := by
  decide

/-- C3 (amended): for raw configurations whose `source` / `dest` are
mappings when present, `parse_config` fails exactly when `source`,
`dest`, `source.type` or `dest.type` is missing **or falsy** (absent,
empty or false), each case with its own distinct message, and otherwise
returns the `Config` tuple with all remaining fields defaulted to the
raw `get` results. -/
theorem parse_config_error_conditions (config : CFields)
    (_h : rawShapeOk config = true) :
    ((parse_config config).2.isOk = true ↔
      ((config.get "source").truthy = true ∧ (config.get "dest").truthy = true ∧
       ((config.get "source").get "type").truthy = true ∧
       ((config.get "dest").get "type").truthy = true)) ∧
    ((config.get "source").truthy = false →
      (parse_config config).2 =
        .error "source error: source not defined. Please check config.") ∧
    ((config.get "source").truthy = true → (config.get "dest").truthy = false →
      (parse_config config).2 =
        .error "destination error: dest not defined. Please check config.") ∧
    ((config.get "source").truthy = true → (config.get "dest").truthy = true →
      ((config.get "source").get "type").truthy = false →
      (parse_config config).2 =
        .error "source error: source type not defined. Please check config.") ∧
    ((config.get "source").truthy = true → (config.get "dest").truthy = true →
      ((config.get "source").get "type").truthy = true →
      ((config.get "dest").get "type").truthy = false →
      (parse_config config).2 =
        .error "destination error: dest type not defined. Please check config.") ∧
    ((config.get "source").truthy = true → (config.get "dest").truthy = true →
      ((config.get "source").get "type").truthy = true →
      ((config.get "dest").get "type").truthy = true →
      (parse_config config).2 = .ok
        ⟨config.get "source", config.get "dest", config.get "anonymization",
         config.get "include", config.get "exclude", config.get "include_rest",
         config.get "sensitive"⟩) := by
  clear _h
  cases hs : (config.get "source").truthy <;>
    cases hd : (config.get "dest").truthy <;>
      cases hst : ((config.get "source").get "type").truthy <;>
        cases hdt : ((config.get "dest").get "type").truthy <;>
          simp [parse_config, hs, hd, hst, hdt, Except.isOk, Except.toBool]

/-- Witness for C3 at a complete concrete configuration. -/
theorem parse_config_error_conditions_witness :
    rawShapeOk cfgNoMask = true ∧
    (parse_config cfgNoMask).2.isOk = true :=
  ⟨by decide,
   ((parse_config_error_conditions cfgNoMask (by decide)).1).mpr
     (by refine ⟨?_, ?_, ?_, ?_⟩ <;> decide)⟩

/-! ## Claim C7: the empty-mask warning is non-fatal -/

/-- C7 (confirmed): when `masked_fields` (the `include` key) is falsy
(absent or empty) but `source` and `dest` are truthy, `parse_config`
emits exactly the empty-mask warning, and if the two types are also
truthy it still returns a `Config` — the warning is non-fatal. -/
theorem empty_mask_nonfatal (config : CFields)
    (hm : (config.get "include").truthy = false)
    (hs : (config.get "source").truthy = true)
    (hd : (config.get "dest").truthy = true) :
    (parse_config config).1 = [emptyMaskWarning] ∧
    (((config.get "source").get "type").truthy = true →
      ((config.get "dest").get "type").truthy = true →
      (parse_config config).2.isOk = true) := by
  cases hst : ((config.get "source").get "type").truthy <;>
    cases hdt : ((config.get "dest").get "type").truthy <;>
      simp [parse_config, hm, hs, hd, hst, hdt, Except.isOk, Except.toBool]

/-- Witness for C7: a configuration without `include` parses with the
warning. -/
theorem empty_mask_nonfatal_witness :
    (cfgNoMask.get "include").truthy = false ∧
    (parse_config cfgNoMask).1 = [emptyMaskWarning] ∧
    (parse_config cfgNoMask).2.isOk = true := by
  have h := empty_mask_nonfatal cfgNoMask (by decide) (by decide) (by decide)
  exact ⟨by decide, h.1, h.2 (by decide) (by decide)⟩

/-! ## String and split lemmas for the flatten round-trip -/

@[simp] theorem string_mk_data (s : String) : String.mk s.data = s := by
  cases s
  rfl

theorem string_ne_empty_data (s : String) (h : s ≠ "") : s.data ≠ [] := by
  cases s with
  | mk d =>
    intro hd
    apply h
    rw [show ("" : String) = String.mk [] from rfl]
    exact congrArg String.mk hd

theorem pySplitGo_fuel (sep : List Char) :
    ∀ (f1 f2 : Nat) (l : List Char), l.length ≤ f1 → l.length ≤ f2 →
      pySplitGo sep f1 l = pySplitGo sep f2 l := by
  intro f1
  induction f1 with
  | zero =>
    intro f2 l h1 _
    have : l = [] := List.length_eq_zero.mp (Nat.le_zero.mp h1)
    subst this
    cases f2 <;> rfl
  | succ f1' ih =>
    intro f2 l h1 h2
    match l with
    | [] => cases f2 <;> rfl
    | c :: cs =>
      cases f2 with
      | zero => simp at h2
      | succ f2' =>
        simp only [pySplitGo]
        by_cases hc : sep ≠ [] ∧ sep.isPrefixOf (c :: cs)
        · rw [if_pos hc, if_pos hc]
          have hsep : 1 ≤ sep.length := by
            cases sep with
            | nil => exact absurd rfl hc.1
            | cons a as => simp
          have hdrop : (List.drop sep.length (c :: cs)).length ≤ f1' := by
            simp only [List.length_drop, List.length_cons] at *
            omega
          have hdrop2 : (List.drop sep.length (c :: cs)).length ≤ f2' := by
            simp only [List.length_drop, List.length_cons] at *
            omega
          rw [ih f2' (List.drop sep.length (c :: cs)) hdrop hdrop2]
        · rw [if_neg hc, if_neg hc]
          rw [ih f2' cs (by simpa using Nat.le_of_succ_le_succ h1)
              (by simpa using Nat.le_of_succ_le_succ h2)]

theorem pySplitGo_no_sep (c : Char) :
    ∀ (s : List Char) (f : Nat), s.length ≤ f → c ∉ s →
      pySplitGo [c] f s = [s] := by
  intro s
  induction s with
  | nil => intro f _ _; cases f <;> rfl
  | cons d ds ih =>
    intro f hf hc
    cases f with
    | zero => simp at hf
    | succ f' =>
      have hcd : c ≠ d := fun h => hc (h ▸ List.mem_cons_self c ds)
      have hin : c ∉ ds := fun h => hc (List.mem_cons_of_mem d h)
      simp only [pySplitGo]
      rw [if_neg (fun h => hcd (by simpa [List.isPrefixOf] using h.2))]
      rw [ih f' (by simpa using Nat.le_of_succ_le_succ hf) hin]

theorem pySplit_no_sep (c : Char) (s : List Char) (hc : c ∉ s) :
    pySplit [c] s = [s] :=
  pySplitGo_no_sep c s s.length (le_refl _) hc

theorem pySplitGo_sep_split (c : Char) :
    ∀ (s : List Char) (f : Nat) (rest : List Char),
      (s ++ c :: rest).length ≤ f → c ∉ s →
      pySplitGo [c] f (s ++ c :: rest) = s :: pySplit [c] rest := by
  intro s
  induction s with
  | nil =>
    intro f rest hf _
    cases f with
    | zero => simp at hf
    | succ f' =>
      simp only [List.nil_append, pySplitGo]
      rw [if_pos ⟨by simp, by simp [List.isPrefixOf]⟩]
      have h1 : (List.drop ([c] : List Char).length (c :: rest)) = rest := by simp
      rw [h1]
      have hlen : rest.length ≤ f' := by
        simp only [List.nil_append, List.length_cons] at hf
        omega
      rw [pySplitGo_fuel [c] f' rest.length rest hlen (le_refl _)]
      rfl
  | cons d ds ih =>
    intro f rest hf hc
    cases f with
    | zero => simp at hf
    | succ f' =>
      have hcd : c ≠ d := fun h => hc (h ▸ List.mem_cons_self c ds)
      have hin : c ∉ ds := fun h => hc (List.mem_cons_of_mem d h)
      simp only [List.cons_append, pySplitGo, List.append_eq]
      rw [if_neg (fun h => hcd (by simpa [List.isPrefixOf] using h.2))]
      rw [ih f' rest (by simpa using Nat.le_of_succ_le_succ hf) hin]

theorem pySplit_sep_split (c : Char) (s rest : List Char) (hc : c ∉ s) :
    pySplit [c] (s ++ c :: rest) = s :: pySplit [c] rest :=
  pySplitGo_sep_split c s (s ++ c :: rest).length rest (le_refl _) hc

theorem joinSegs_glue (c : Char) (x y : List Char) :
    ∀ (l : List (List Char)),
      joinSegs c ((x ++ c :: y) :: l) = x ++ c :: joinSegs c (y :: l)
  | [] => by simp [joinSegs]
  | z :: l' => by simp [joinSegs, List.append_assoc]

theorem joinSegs_split (c : Char) :
    ∀ (segs : List (List Char)), segs ≠ [] → (∀ s ∈ segs, c ∉ s) →
      pySplit [c] (joinSegs c segs) = segs
  | [], h, _ => absurd rfl h
  | [s], _, hm => by
    simp only [joinSegs]
    exact pySplit_no_sep c s (hm s (by simp))
  | s :: s2 :: rest, _, hm => by
    have he : joinSegs c (s :: s2 :: rest) = s ++ c :: joinSegs c (s2 :: rest) := by
      simp [joinSegs]
    rw [he, pySplit_sep_split c s (joinSegs c (s2 :: rest)) (hm s (by simp))]
    rw [joinSegs_split c (s2 :: rest) (by simp)
        (fun t ht => hm t (List.mem_cons_of_mem _ ht))]

theorem extendKey_append (sep parent : String) (ks1 ks2 : List String) :
    extendKey sep parent (ks1 ++ ks2) =
      extendKey sep (extendKey sep parent ks1) ks2 := by
  simp [extendKey, List.foldl_append]

theorem joinKey_data_nonempty (c : Char) (a k : String) (ha : a ≠ "") :
    (joinKey a (sepOf c) k).data = a.data ++ c :: k.data := by
  simp [joinKey, ha, sepOf, String.data_append]

theorem joinKey_ne_empty (c : Char) (a k : String) (ha : a ≠ "") :
    joinKey a (sepOf c) k ≠ "" := by
  intro h
  have hd := congrArg String.data h
  rw [joinKey_data_nonempty c a k ha] at hd
  have := string_ne_empty_data a ha
  cases hda : a.data with
  | nil => exact this hda
  | cons e es => rw [hda] at hd; simp at hd

theorem extendKey_data (c : Char) :
    ∀ (ks : List String) (a : String), a ≠ "" →
      (extendKey (sepOf c) a ks).data =
        joinSegs c (a.data :: ks.map String.data)
  | [], a, _ => by simp [extendKey, joinSegs]
  | k :: ks, a, ha => by
    have h1 : extendKey (sepOf c) a (k :: ks) =
        extendKey (sepOf c) (joinKey a (sepOf c) k) ks := rfl
    rw [h1, extendKey_data c ks _ (joinKey_ne_empty c a k ha)]
    rw [joinKey_data_nonempty c a k ha, List.map_cons]
    rw [joinSegs_glue c a.data k.data (ks.map String.data)]
    simp [joinSegs]

theorem extendKey_empty_cons (sep k : String) (ks : List String) :
    extendKey sep "" (k :: ks) = extendKey sep k ks := by
  simp [extendKey, joinKey]

theorem splitKey (c : Char) (k1 : String) (ks : List String)
    (h1 : k1 ≠ "") (hc1 : c ∉ k1.data) (hks : ∀ k ∈ ks, c ∉ k.data) :
    pySplitStr (extendKey (sepOf c) "" (k1 :: ks)) (sepOf c) = k1 :: ks := by
  have hmem : ∀ s ∈ k1.data :: ks.map String.data, c ∉ s := by
    intro s hs
    rcases List.mem_cons.mp hs with h | h
    · subst h; exact hc1
    · obtain ⟨k, hk, rfl⟩ := List.mem_map.mp h
      exact hks k hk
  unfold pySplitStr
  rw [show (sepOf c).data = [c] from rfl]
  rw [extendKey_empty_cons, extendKey_data c ks k1 h1]
  rw [joinSegs_split c (k1.data :: ks.map String.data) (by simp) hmem]
  simp only [List.map_cons, List.map_map, string_mk_data, List.cons.injEq, true_and]
  have : ∀ k ∈ ks, (String.mk ∘ String.data) k = id k := fun k _ => string_mk_data k
  rw [List.map_congr_left this, List.map_id]

theorem extendKey_inj (c : Char) (p q : List String)
    (hp : p ≠ []) (hq : q ≠ [])
    (hpw : ∀ k ∈ p, k ≠ "" ∧ c ∉ k.data)
    (hqw : ∀ k ∈ q, k ≠ "" ∧ c ∉ k.data)
    (h : extendKey (sepOf c) "" p = extendKey (sepOf c) "" q) : p = q := by
  obtain ⟨k1, ks, rfl⟩ := List.exists_cons_of_ne_nil hp
  obtain ⟨l1, ls, rfl⟩ := List.exists_cons_of_ne_nil hq
  have e1 := splitKey c k1 ks (hpw k1 (by simp)).1 (hpw k1 (by simp)).2
    (fun k hk => (hpw k (by simp [hk])).2)
  have e2 := splitKey c l1 ls (hqw l1 (by simp)).1 (hqw l1 (by simp)).2
    (fun k hk => (hqw k (by simp [hk])).2)
  rw [← e1, ← e2, h]

/-! ## `pyDict` is the identity on duplicate-free item lists -/

theorem pyDictUpdate_notMem (acc : List (String × JVal)) (k : String) (v : JVal)
    (h : ∀ p ∈ acc, p.1 ≠ k) : pyDictUpdate acc k v = acc ++ [(k, v)] := by
  unfold pyDictUpdate
  rw [if_neg]
  intro hc
  obtain ⟨p, hp, hpk⟩ := List.any_eq_true.mp hc
  exact h p hp (by simpa using hpk)

theorem pyDict_nodup :
    ∀ (l acc : List (String × JVal)),
      ((acc ++ l).map Prod.fst).Nodup →
      List.foldl (fun acc p => pyDictUpdate acc p.1 p.2) acc l = acc ++ l := by
  intro l
  induction l with
  | nil => intro acc _; simp
  | cons p l' ih =>
    intro acc h
    simp only [List.foldl_cons]
    rw [pyDictUpdate_notMem acc p.1 p.2]
    · have h2 : (((acc ++ [p]) ++ l').map Prod.fst).Nodup := by
        simpa [List.append_assoc] using h
      rw [ih (acc ++ [p]) h2]
      simp
    · intro q hq hqp
      rw [List.map_append] at h
      have hd := (List.nodup_append.mp h).2.2
      exact hd (a := p.1) (by rw [← hqp]; exact List.mem_map_of_mem Prod.fst hq)
        (by simp)

theorem pyDict_id (l : List (String × JVal)) (h : (l.map Prod.fst).Nodup) :
    pyDict l = l := by
  have := pyDict_nodup l [] (by simpa using h)
  simpa [pyDict] using this

/-! ## Structure of the leaf paths of a well-formed record -/

theorem flatPaths_wf (c : Char) :
    (d : JObj) → JObj.wfObj c d = true →
      ∀ p ∈ flatPaths d, p.1 ≠ [] ∧ ∀ k ∈ p.1, k ≠ "" ∧ c ∉ k.data
  | .nil, _, p, hp => by simp [flatPaths] at hp
  | .cons k v rest, h, p, hp => by
    simp only [JObj.wfObj, Bool.and_eq_true, Bool.not_eq_true',
      decide_eq_false_iff_not] at h
    obtain ⟨⟨⟨⟨hk1, hk2⟩, _⟩, hv⟩, hr⟩ := h
    cases v with
    | prim s =>
      simp only [flatPaths, List.mem_append, List.mem_singleton] at hp
      rcases hp with hp | hp
      · subst hp
        refine ⟨by simp, ?_⟩
        intro k' hk'
        simp only [List.mem_singleton] at hk'
        subst hk'
        exact ⟨hk1, hk2⟩
      · exact flatPaths_wf c rest hr p hp
    | seq vs =>
      simp only [flatPaths, List.mem_append, List.mem_singleton] at hp
      rcases hp with hp | hp
      · subst hp
        refine ⟨by simp, ?_⟩
        intro k' hk'
        simp only [List.mem_singleton] at hk'
        subst hk'
        exact ⟨hk1, hk2⟩
      · exact flatPaths_wf c rest hr p hp
    | obj fields =>
      simp only [flatPaths, List.mem_append, List.mem_map] at hp
      rcases hp with hp | hp
      · obtain ⟨q, hq, rfl⟩ := hp
        have hwf : JObj.wfObj c fields = true := by
          simp only [JVal.wfVal, Bool.and_eq_true] at hv
          exact hv.2
        have hrec := flatPaths_wf c fields hwf q hq
        refine ⟨by simp, ?_⟩
        intro k' hk'
        rcases List.mem_cons.mp hk' with h' | h'
        · subst h'; exact ⟨hk1, hk2⟩
        · exact hrec.2 k' h'
      · exact flatPaths_wf c rest hr p hp

theorem flatPaths_ne_nil (c : Char) :
    (d : JObj) → JObj.wfObj c d = true → d ≠ .nil → flatPaths d ≠ []
  | .nil, _, hne => absurd rfl hne
  | .cons k v rest, h, _ => by
    simp only [JObj.wfObj, Bool.and_eq_true] at h
    obtain ⟨⟨⟨_, _⟩, hv⟩, _⟩ := h
    cases v with
    | prim s => simp [flatPaths]
    | seq vs => simp [flatPaths]
    | obj fields =>
      simp only [JVal.wfVal, Bool.and_eq_true, Bool.not_eq_true'] at hv
      have hne : fields ≠ .nil := by
        intro hnil
        subst hnil
        simp [JObj.isNil] at hv
      have := flatPaths_ne_nil c fields hv.2 hne
      simp [flatPaths, this]

theorem flatPaths_head :
    (d : JObj) → ∀ p ∈ flatPaths d, ∃ kh t, p.1 = kh :: t ∧ d.hasKey kh = true
  | .nil, p, hp => by simp [flatPaths] at hp
  | .cons k v rest, p, hp => by
    have hrest : p ∈ flatPaths rest →
        ∃ kh t, p.1 = kh :: t ∧ (JObj.cons k v rest).hasKey kh = true := by
      intro hp'
      obtain ⟨kh, t, hp1, hp2⟩ := flatPaths_head rest p hp'
      exact ⟨kh, t, hp1, by simp [JObj.hasKey, hp2]⟩
    cases v with
    | prim s =>
      simp only [flatPaths, List.mem_append, List.mem_singleton] at hp
      rcases hp with hp | hp
      · subst hp
        exact ⟨k, [], rfl, by simp [JObj.hasKey]⟩
      · exact hrest hp
    | seq vs =>
      simp only [flatPaths, List.mem_append, List.mem_singleton] at hp
      rcases hp with hp | hp
      · subst hp
        exact ⟨k, [], rfl, by simp [JObj.hasKey]⟩
      · exact hrest hp
    | obj fields =>
      simp only [flatPaths, List.mem_append, List.mem_map] at hp
      rcases hp with hp | hp
      · obtain ⟨q, _, rfl⟩ := hp
        exact ⟨k, q.1, rfl, by simp [JObj.hasKey]⟩
      · exact hrest hp

theorem flatPaths_leaf :
    (d : JObj) → ∀ p ∈ flatPaths d, ∀ fields, p.2 ≠ JVal.obj fields
  | .nil, p, hp => by simp [flatPaths] at hp
  | .cons k v rest, p, hp => by
    cases v with
    | prim s =>
      simp only [flatPaths, List.mem_append, List.mem_singleton] at hp
      rcases hp with hp | hp
      · subst hp; simp
      · exact flatPaths_leaf rest p hp
    | seq vs =>
      simp only [flatPaths, List.mem_append, List.mem_singleton] at hp
      rcases hp with hp | hp
      · subst hp; simp
      · exact flatPaths_leaf rest p hp
    | obj fields' =>
      simp only [flatPaths, List.mem_append, List.mem_map] at hp
      rcases hp with hp | hp
      · obtain ⟨q, hq, rfl⟩ := hp
        exact flatPaths_leaf fields' q hq
      · exact flatPaths_leaf rest p hp

theorem wfSegs_mem (c : Char) (P : List String) (hP : wfSegs c P = true) :
    ∀ k ∈ P, k ≠ "" ∧ c ∉ k.data := by
  intro k hk
  have := (List.all_eq_true.mp hP) k hk
  simpa [Bool.and_eq_true, Bool.not_eq_true', decide_eq_false_iff_not] using this

theorem group_rest_disjoint (c : Char) (P : List String) (k : String)
    (hP : wfSegs c P = true) (hk1 : k ≠ "") (hk2 : c ∉ k.data)
    (rest : JObj) (hr : JObj.wfObj c rest = true) (hk3 : rest.hasKey k = false)
    (tail : List String)
    (htail : ∀ k' ∈ tail, k' ≠ "" ∧ c ∉ k'.data) :
    extendKey (sepOf c) "" (P ++ k :: tail) ∉
      (flatPaths rest).map (fun p => extendKey (sepOf c) "" (P ++ p.1)) := by
  intro hmem
  obtain ⟨q, hq, he⟩ := List.mem_map.mp hmem
  obtain ⟨kh, t, hq1, hq2⟩ := flatPaths_head rest q hq
  have hqw := flatPaths_wf c rest hr q hq
  have hPw := wfSegs_mem c P hP
  have hinj := extendKey_inj c (P ++ q.1) (P ++ k :: tail)
    (by simp [hq1]) (by simp)
    (by
      intro k' hk'
      rcases List.mem_append.mp hk' with h' | h'
      · exact hPw k' h'
      · exact hqw.2 k' h')
    (by
      intro k' hk'
      rcases List.mem_append.mp hk' with h' | h'
      · exact hPw k' h'
      · rcases List.mem_cons.mp h' with h'' | h''
        · subst h''; exact ⟨hk1, hk2⟩
        · exact htail k' h'')
    he
  have hq1' : q.1 = k :: tail := List.append_cancel_left hinj
  have h2 : (k : String) :: tail = kh :: t := by rw [← hq1', hq1]
  injection h2 with h3 _
  rw [← h3] at hq2
  rw [hq2] at hk3
  exact Bool.noConfusion hk3

/-! ## The flat mapping of a well-formed record is its keyed leaf paths -/

theorem flatten_items_eq (c : Char) :
    (d : JObj) → (P : List String) → JObj.wfObj c d = true → wfSegs c P = true →
      flatten_items d (extendKey (sepOf c) "" P) (sepOf c) =
        (flatPaths d).map
          (fun p => (extendKey (sepOf c) "" (P ++ p.1), p.2)) ∧
      ((flatPaths d).map
        (fun p => extendKey (sepOf c) "" (P ++ p.1))).Nodup
  | .nil, P, _, _ => by simp [flatten_items, flatPaths]
  | .cons k v rest, P, h, hP => by
    simp only [JObj.wfObj, Bool.and_eq_true, Bool.not_eq_true',
      decide_eq_false_iff_not] at h
    obtain ⟨⟨⟨⟨hk1, hk2⟩, hk3⟩, hv⟩, hr⟩ := h
    have hrest := flatten_items_eq c rest P hr hP
    have hnew : extendKey (sepOf c) "" (P ++ [k]) =
        joinKey (extendKey (sepOf c) "" P) (sepOf c) k := by
      rw [extendKey_append]
      rfl
    have hPk : wfSegs c (P ++ [k]) = true := by
      simp only [wfSegs, List.all_append, List.all_cons, List.all_nil,
        Bool.and_true, Bool.and_eq_true] at *
      refine ⟨hP, ?_, ?_⟩ <;> simp [hk1, hk2]
    cases v with
    | prim s =>
      constructor
      · simp only [flatten_items, flatPaths, List.map_append, List.map_cons,
          List.map_nil, List.cons_append, List.nil_append, List.singleton_append]
        rw [hnew, hrest.1]
      · simp only [flatPaths, List.map_append, List.map_cons, List.map_nil,
          List.singleton_append, List.nodup_cons]
        refine ⟨?_, hrest.2⟩
        exact group_rest_disjoint c P k hP hk1 hk2 rest hr hk3 [] (by simp)
    | seq vs =>
      constructor
      · simp only [flatten_items, flatPaths, List.map_append, List.map_cons,
          List.map_nil, List.cons_append, List.nil_append, List.singleton_append]
        rw [hnew, hrest.1]
      · simp only [flatPaths, List.map_append, List.map_cons, List.map_nil,
          List.singleton_append, List.nodup_cons]
        refine ⟨?_, hrest.2⟩
        exact group_rest_disjoint c P k hP hk1 hk2 rest hr hk3 [] (by simp)
    | obj fields =>
      simp only [JVal.wfVal, Bool.and_eq_true, Bool.not_eq_true'] at hv
      obtain ⟨_, hvwf⟩ := hv
      have hrecF := flatten_items_eq c fields (P ++ [k]) hvwf hPk
      have hassoc : ∀ q : List String × JVal,
          (P ++ [k]) ++ q.1 = P ++ (k :: q.1) := by
        intro q
        simp [List.append_assoc]
      have hdict :
          pyDict (flatten_items fields (extendKey (sepOf c) "" (P ++ [k]))
            (sepOf c)) =
          flatten_items fields (extendKey (sepOf c) "" (P ++ [k])) (sepOf c) := by
        apply pyDict_id
        rw [hrecF.1]
        have hkeys :
            ((flatPaths fields).map
              (fun q => (extendKey (sepOf c) "" ((P ++ [k]) ++ q.1), q.2))).map
                Prod.fst =
            (flatPaths fields).map
              (fun q => extendKey (sepOf c) "" ((P ++ [k]) ++ q.1)) := by
          simp [List.map_map, Function.comp]
        rw [hkeys]
        exact hrecF.2
      constructor
      · simp only [flatten_items, flatPaths, List.map_append, List.map_map]
        rw [← hnew, hdict, hrecF.1, hrest.1]
        congr 1
        apply List.map_congr_left
        intro q _
        simp [Function.comp, hassoc q]
      · simp only [flatPaths, List.map_append, List.map_map]
        rw [List.nodup_append]
        refine ⟨?_, hrest.2, ?_⟩
        · have heq : (flatPaths fields).map
              ((fun p => extendKey (sepOf c) "" (P ++ p.1)) ∘
                (fun q => ((k :: q.1 : List String), q.2))) =
              (flatPaths fields).map
                (fun q => extendKey (sepOf c) "" ((P ++ [k]) ++ q.1)) := by
            apply List.map_congr_left
            intro q _
            simp [Function.comp, hassoc q]
          rw [heq]
          exact hrecF.2
        · intro a ha hb
          simp only [List.mem_map, Function.comp] at ha
          obtain ⟨q, hq, rfl⟩ := ha
          have hqw := flatPaths_wf c fields hvwf q hq
          exact group_rest_disjoint c P k hP hk1 hk2 rest hr hk3 q.1 hqw.2 hb

theorem flatten_nest_eq (c : Char) (d : JObj) (h : JObj.wfObj c d = true) :
    flatten_nest d "" (sepOf c) =
      (flatPaths d).map (fun p => (extendKey (sepOf c) "" p.1, p.2)) := by
  have h0 : wfSegs c ([] : List String) = true := by simp [wfSegs]
  have hmain := flatten_items_eq c d [] h h0
  simp only [List.nil_append] at hmain
  have he : extendKey (sepOf c) "" ([] : List String) = "" := rfl
  rw [he] at hmain
  unfold flatten_nest
  rw [hmain.1]
  apply pyDict_id
  have hkeys : ((flatPaths d).map
      (fun p => (extendKey (sepOf c) "" p.1, p.2))).map Prod.fst =
      (flatPaths d).map (fun p => extendKey (sepOf c) "" p.1) := by
    simp [List.map_map, Function.comp]
  rw [hkeys]
  exact hmain.2

/-! ## Rebuilding: `unflatten` folds `setPath` back into the record -/

theorem objAppend_nil : ∀ (o : JObj), o.append .nil = o
  | .nil => rfl
  | .cons k v rest => by
    simp only [JObj.append]
    exact congrArg (JObj.cons k v) (objAppend_nil rest)

theorem objAppend_assoc :
    ∀ (a b d : JObj), (a.append b).append d = a.append (b.append d)
  | .nil, _, _ => rfl
  | .cons k v rest, b, d => by
    simp only [JObj.append]
    exact congrArg (JObj.cons k v) (objAppend_assoc rest b d)

theorem hasKey_append : ∀ (a b : JObj) (key : String),
    (a.append b).hasKey key = (a.hasKey key || b.hasKey key)
  | .nil, _, _ => rfl
  | .cons k v rest, b, key => by
    simp only [JObj.append, JObj.hasKey]
    rw [hasKey_append rest b key]
    simp [Bool.or_assoc]

theorem lookup_of_not_hasKey : ∀ (a : JObj) (key : String),
    a.hasKey key = false → a.lookup key = Option.none
  | .nil, _, _ => rfl
  | .cons k v rest, key, h => by
    simp only [JObj.hasKey, Bool.or_eq_false_iff, decide_eq_false_iff_not] at h
    simp only [JObj.lookup]
    rw [if_neg h.1]
    exact lookup_of_not_hasKey rest key h.2

theorem lookup_append_self : ∀ (a : JObj) (k : String) (w : JVal),
    a.hasKey k = false → (a.append (.cons k w .nil)).lookup k = some w
  | .nil, k, w, _ => by simp [JObj.append, JObj.lookup]
  | .cons k0 v0 rest, k, w, h => by
    simp only [JObj.hasKey, Bool.or_eq_false_iff, decide_eq_false_iff_not] at h
    simp only [JObj.append, JObj.lookup]
    rw [if_neg h.1]
    exact lookup_append_self rest k w h.2

theorem upsert_append_new : ∀ (a : JObj) (k : String) (v : JVal),
    a.hasKey k = false → a.upsert k v = a.append (.cons k v .nil)
  | .nil, _, _, _ => rfl
  | .cons k0 v0 rest, k, v, h => by
    simp only [JObj.hasKey, Bool.or_eq_false_iff, decide_eq_false_iff_not] at h
    simp only [JObj.upsert, JObj.append]
    rw [if_neg h.1]
    rw [upsert_append_new rest k v h.2]

theorem upsert_append_self : ∀ (a : JObj) (k : String) (w v : JVal),
    a.hasKey k = false →
    (a.append (.cons k w .nil)).upsert k v = a.append (.cons k v .nil)
  | .nil, k, w, v, _ => by simp [JObj.append, JObj.upsert]
  | .cons k0 v0 rest, k, w, v, h => by
    simp only [JObj.hasKey, Bool.or_eq_false_iff, decide_eq_false_iff_not] at h
    simp only [JObj.append, JObj.upsert]
    rw [if_neg h.1]
    rw [upsert_append_self rest k w v h.2]

theorem append_disjoint (acc rest : JObj) (k : String) (w : JVal)
    (hacc : ∀ key, rest.hasKey key = true → acc.hasKey key = false)
    (hk3 : rest.hasKey k = false) :
    ∀ key, rest.hasKey key = true →
      (acc.append (.cons k w .nil)).hasKey key = false := by
  intro key hkey
  rw [hasKey_append]
  have h1 : acc.hasKey key = false := hacc key hkey
  have h2 : ¬(k = key) := by
    intro he
    rw [he, hkey] at hk3
    exact Bool.noConfusion hk3
  simp [JObj.hasKey, h1, h2]

theorem groupFold :
    ∀ (ps : List (List String × JVal)) (acc : JObj) (k : String) (X : JObj),
      acc.hasKey k = false → (∀ p ∈ ps, p.1 ≠ []) →
      List.foldl (fun o p => setPath o p.1 p.2)
        (acc.append (.cons k (.obj X) .nil))
        (ps.map (fun p => ((k :: p.1 : List String), p.2))) =
      acc.append
        (.cons k (.obj (List.foldl (fun o p => setPath o p.1 p.2) X ps)) .nil) := by
  intro ps
  induction ps with
  | nil => intro acc k X _ _; simp
  | cons p ps' ih =>
    intro acc k X hk hne
    obtain ⟨b, t, hbt⟩ := List.exists_cons_of_ne_nil (hne p (by simp))
    simp only [List.map_cons, List.foldl_cons]
    rw [hbt]
    simp only [setPath, lookup_append_self acc k (JVal.obj X) hk]
    rw [upsert_append_self acc k (JVal.obj X) _ hk]
    rw [ih acc k (setPath X (b :: t) p.2) hk (fun q hq => hne q (by simp [hq]))]

theorem rebuild_main (c : Char) :
    (d : JObj) → JObj.wfObj c d = true →
      ∀ (acc : JObj), (∀ key, d.hasKey key = true → acc.hasKey key = false) →
      List.foldl (fun o p => setPath o p.1 p.2) acc (flatPaths d) = acc.append d
  | .nil, _, acc, _ => by simp [flatPaths, objAppend_nil]
  | .cons k v rest, h, acc, hdisj => by
    simp only [JObj.wfObj, Bool.and_eq_true, Bool.not_eq_true',
      decide_eq_false_iff_not] at h
    obtain ⟨⟨⟨⟨hk1, hk2⟩, hk3⟩, hv⟩, hr⟩ := h
    have hacck : acc.hasKey k = false := hdisj k (by simp [JObj.hasKey])
    have hacc : ∀ key, rest.hasKey key = true → acc.hasKey key = false :=
      fun key hkey => hdisj key (by simp [JObj.hasKey, hkey])
    cases v with
    | prim s =>
      simp only [flatPaths, List.singleton_append, List.foldl_cons]
      rw [show setPath acc [k] (JVal.prim s) = acc.upsert k (JVal.prim s) from rfl]
      rw [upsert_append_new acc k (JVal.prim s) hacck]
      rw [rebuild_main c rest hr (acc.append (.cons k (.prim s) .nil))
          (append_disjoint acc rest k (.prim s) hacc hk3)]
      rw [objAppend_assoc]
      rfl
    | seq vs =>
      simp only [flatPaths, List.singleton_append, List.foldl_cons]
      rw [show setPath acc [k] (JVal.seq vs) = acc.upsert k (JVal.seq vs) from rfl]
      rw [upsert_append_new acc k (JVal.seq vs) hacck]
      rw [rebuild_main c rest hr (acc.append (.cons k (.seq vs) .nil))
          (append_disjoint acc rest k (.seq vs) hacc hk3)]
      rw [objAppend_assoc]
      rfl
    | obj fields =>
      simp only [JVal.wfVal, Bool.and_eq_true, Bool.not_eq_true'] at hv
      obtain ⟨hvnil, hvwf⟩ := hv
      have hne : fields ≠ .nil := by
        intro hnil
        subst hnil
        simp [JObj.isNil] at hvnil
      have hps := flatPaths_ne_nil c fields hvwf hne
      obtain ⟨p1, ps', hps'⟩ := List.exists_cons_of_ne_nil hps
      have hp1mem : p1 ∈ flatPaths fields := by rw [hps']; simp
      obtain ⟨b, t, hbt⟩ :=
        List.exists_cons_of_ne_nil (flatPaths_wf c fields hvwf p1 hp1mem).1
      have hinner : List.foldl (fun o p => setPath o p.1 p.2) JObj.nil
          (flatPaths fields) = fields := by
        have := rebuild_main c fields hvwf .nil (fun key _ => rfl)
        rw [this]
        rfl
      simp only [flatPaths]
      rw [hps', List.foldl_append, List.map_cons, List.foldl_cons, hbt]
      simp only [setPath, lookup_of_not_hasKey acc k hacck]
      rw [upsert_append_new acc k _ hacck]
      rw [groupFold ps' acc k (setPath JObj.nil (b :: t) p1.2) hacck
          (fun q hq =>
            (flatPaths_wf c fields hvwf q (by rw [hps']; simp [hq])).1)]
      rw [hps', List.foldl_cons, hbt] at hinner
      rw [hinner]
      rw [rebuild_main c rest hr
          (acc.append (.cons k (.obj fields) .nil))
          (append_disjoint acc rest k (.obj fields) hacc hk3)]
      rw [objAppend_assoc]
      rfl

/-- C1 (corrected): flattening then unflattening round-trips to the
original record for a one-character separator `c`, provided the record
is well-formed for `c`: keys are unique at each level (the record data
model), every key is nonempty, no key contains `c`, and no nested
mapping is empty.  The extra conditions beyond "the separator does not
appear in any key" are forced by the counterexamples in
`flatten_roundtrip_cex`. -/
theorem flatten_unflatten_roundtrip (c : Char) (d : JObj)
    (h : JObj.wfObj c d = true) :
    unflatten (flatten_nest d "" (sepOf c)) (sepOf c) = d := by
  rw [flatten_nest_eq c d h]
  unfold unflatten
  rw [List.foldl_map]
  have hsplit : ∀ (acc : JObj), ∀ p ∈ flatPaths d,
      setPath acc
        (pySplitStr (extendKey (sepOf c) "" p.1, p.2).1 (sepOf c))
        (extendKey (sepOf c) "" p.1, p.2).2 =
      setPath acc p.1 p.2 := by
    intro acc p hp
    have hw := flatPaths_wf c d h p hp
    obtain ⟨k1, ks, hks⟩ := List.exists_cons_of_ne_nil hw.1
    have hsp : pySplitStr (extendKey (sepOf c) "" p.1) (sepOf c) = p.1 := by
      rw [hks]
      exact splitKey c k1 ks (hw.2 k1 (by simp [hks])).1
        (hw.2 k1 (by simp [hks])).2
        (fun k hk => (hw.2 k (by simp [hks, hk])).2)
    rw [hsp]
  rw [List.foldl_ext _ _ JObj.nil hsplit]
  have := rebuild_main c d h .nil (fun key _ => rfl)
  rw [this]
  rfl

/-- Witness for C1: the amended round-trip at a concrete two-level
record with a scalar, a sibling and a sequence leaf. -/
theorem flatten_unflatten_roundtrip_witness :
    JObj.wfObj '.' recUser = true ∧
    unflatten (flatten_nest recUser "" (sepOf '.')) (sepOf '.') = recUser :=
  ⟨by decide, flatten_unflatten_roundtrip '.' recUser (by decide)⟩

/-- C1 counterexample: three records on which the round-trip fails even
though the separator appears in no key, refuting the claim as stated.
First, an empty top-level key: Python's truthiness test
`parent_key + sep + k if parent_key else k` drops the empty prefix, so
`{"": {"a": 1}}` flattens to `{"a": 1}`.  Second, the separator `"aa"`
overlaps the join of keys `"a"` and `"b"`: `"a"+"aa"+"b" = "aaab"`,
which `split("aa")` cuts as `["", "ab"]`.  Third, an empty nested
mapping contributes no items at all. -/
theorem flatten_roundtrip_cex :
    (sepInSomeKey "." recEmptyTopKey = false ∧
      unflatten (flatten_nest recEmptyTopKey "" ".") "." ≠ recEmptyTopKey) ∧
    (sepInSomeKey "aa" recSepOverlap = false ∧
      unflatten (flatten_nest recSepOverlap "" "aa") "aa" ≠ recSepOverlap) ∧
    (sepInSomeKey "." recEmptyNested = false ∧
      unflatten (flatten_nest recEmptyNested "" ".") "." ≠ recEmptyNested) := by
  decide

/-- C8 (confirmed): for a well-formed record, `flatten_nest` yields
exactly one entry per leaf path — it recurses into nested mappings only,
scalar and sequence leaves are emitted as terminal values (never a
mapping), every emitted key is the separator-join of the mapping keys
along the descent (each level prefixing the parent path), and the empty
mapping flattens to the empty mapping for every parent key and
separator. -/
theorem flatten_structure (c : Char) (d : JObj) (h : JObj.wfObj c d = true) :
    flatten_nest d "" (sepOf c) =
      (flatPaths d).map (fun p => (extendKey (sepOf c) "" p.1, p.2)) ∧
    (∀ p ∈ flatPaths d, ∀ fields, p.2 ≠ JVal.obj fields) ∧
    (∀ parent_key sep : String, flatten_nest .nil parent_key sep = []) :=
  ⟨flatten_nest_eq c d h, flatPaths_leaf d, fun _ _ => rfl⟩

/-- Witness for C8 at the concrete record `recUser`. -/
theorem flatten_structure_witness :
    JObj.wfObj '.' recUser = true ∧
    flatten_nest recUser "" (sepOf '.') =
      (flatPaths recUser).map (fun p => (extendKey (sepOf '.') "" p.1, p.2)) :=
  ⟨by decide, (flatten_structure '.' recUser (by decide)).1⟩

end AnonymizeIt
